import Mathlib

/-!
Formalisation of the `map_reduce.py` MapReduce framework: a shallow
embedding of the classes `Task`, `Worker` and `MapReduce`, together with
theorems checking the specification's claims against the code.
-/

namespace MapReducePy

/-- Errors raised by the Python code: `ValueError` for argument validation
(the spec's InvalidArgument) and the `TypeError` that `functools.reduce`
raises on an empty sequence. -/
inductive PyError where
  | invalidArgument (msg : String)
  | typeError
  deriving DecidableEq

/-- The runtime type of the `values` argument, as far as the code's
`type(values) is list` check and the spec's "genuine finite sequence type"
wording can distinguish it: a built-in `list`, a `tuple`, an instance of a
subclass of `list`, or a non-sequence object. -/
inductive PyArg (E : Type) where
  | pyList (xs : List E)
  | pyTuple (xs : List E)
  | pyListSubclass (xs : List E)
  | pyOther

/-- Embedding of the check `type(values) is list`: true exactly for the
built-in `list` type (a subclass instance has a different exact type). -/
def PyArg.isList {E : Type} : PyArg E → Bool
  | .pyList _ => true
  | _ => false

/-- Spec-side notion ("a genuine finite sequence type"): built-in lists,
tuples and list subclasses are all genuine finite sequence types. -/
def PyArg.isFiniteSequence {E : Type} : PyArg E → Bool
  | .pyList _ => true
  | .pyTuple _ => true
  | .pyListSubclass _ => true
  | .pyOther => false

/-- The elements carried by a sequence argument. -/
def PyArg.getList {E : Type} : PyArg E → List E
  | .pyList xs => xs
  | .pyTuple xs => xs
  | .pyListSubclass xs => xs
  | .pyOther => []

/-- A Python argument that may or may not be callable, as tested by
`callable(f)`. -/
inductive PyCallable (F : Type) where
  | callable (f : F)
  | nonCallable

/-- Embedding of the `callable(f)` check. -/
def PyCallable.isCallable {F : Type} : PyCallable F → Bool
  | .callable _ => true
  | .nonCallable => false

/-- `Task.__init__`: a key, the list of values belonging to the key, and
the reducer function. -/
structure Task (K V : Type) where
  key : K
  values : List V
  reduce : V → V → V

/-- `Task.run`: `(self._key, functools.reduce(self._reduce, self._values))`.
`functools.reduce` without initializer is the seedless left fold; it raises
`TypeError` on an empty sequence. -/
def Task.run {K V : Type} (t : Task K V) : Except PyError (K × V) :=
  match t.values with
  | [] => Except.error PyError.typeError
  | v :: vs => Except.ok (t.key, List.foldl t.reduce v vs)

/-- `Worker`: holds the list `self._tasks`. -/
structure Worker (K V : Type) where
  tasks : List (Task K V)

/-- `Worker.__init__`: `self._tasks = []`. -/
def Worker.new {K V : Type} : Worker K V := ⟨[]⟩

/-- `Worker.submit`: `self._tasks.append(task)`. -/
def Worker.submit {K V : Type} (w : Worker K V) (t : Task K V) : Worker K V :=
  ⟨w.tasks ++ [t]⟩

/-- `Worker.execute`: `[task.run() for task in self._tasks]`; an error
raised by some `task.run()` propagates. -/
def Worker.execute {K V : Type} (w : Worker K V) : Except PyError (List (K × V)) :=
  w.tasks.mapM Task.run

/-- State-passing form of `Worker.execute`: the method body assigns no
attribute of `self`, so the post-state equals the pre-state. -/
def Worker.executeS {K V : Type} (w : Worker K V) :
    Worker K V × Except PyError (List (K × V)) :=
  (w, w.execute)

/-- `MapReduce`: holds `self._num_workers` (a Python `int`). -/
structure MapReduce where
  num_workers : Int

/-- `MapReduce.__init__`: raises `ValueError` when `num_workers <= 0`. -/
def MapReduce.init (num_workers : Int) : Except PyError MapReduce :=
  if num_workers ≤ 0 then
    Except.error (PyError.invalidArgument "num_workers should be positive")
  else Except.ok ⟨num_workers⟩

/-- One `task_inputs[key].append(value)` step on an insertion-ordered
association list, modelling `defaultdict(list)` over a Python 3.7+
insertion-ordered dict: append to the entry of `key` when one is present,
otherwise add a new entry `(key, [value])` at the end. -/
def groupInsert {K V : Type} [DecidableEq K] :
    List (K × List V) → K → V → List (K × List V)
  | [], k, v => [(k, [v])]
  | (k', vs) :: rest, k, v =>
    if k' = k then (k', vs ++ [v]) :: rest
    else (k', vs) :: groupInsert rest k v

/-- The `task_inputs` dict built by the `for key, value in mapped` loop of
`_prepare_tasks`. -/
def taskInputs {K V : Type} [DecidableEq K] (mapped : List (K × V)) : List (K × List V) :=
  mapped.foldl (fun acc p => groupInsert acc p.1 p.2) []

/-- `workers[j].submit(task)`: submit a task to the worker at index `j`
(an out-of-range index leaves the pool unchanged; this never occurs in the
code, where `j = i % num_workers < num_workers`). -/
def submitAt {K V : Type} : List (Worker K V) → Nat → Task K V → List (Worker K V)
  | [], _, _ => []
  | w :: ws, 0, t => w.submit t :: ws
  | w :: ws, j + 1, t => w :: submitAt ws j t

/-- The loop `for i, (key, value) in enumerate(task_inputs.items()):
workers[i % self._num_workers].submit(Task(key, value, reduce))`, started
at index `i`. -/
def distribute {K V : Type} (n : Nat) (g : V → V → V) :
    List (Worker K V) → Nat → List (K × List V) → List (Worker K V)
  | ws, _, [] => ws
  | ws, i, p :: rest => distribute n g (submitAt ws (i % n) (Task.mk p.1 p.2 g)) (i + 1) rest

/-- `MapReduce._prepare_tasks`: map all values, group them by key, create
`num_workers` fresh workers and distribute the per-key tasks circularly. -/
def MapReduce.prepare_tasks {E K V : Type} [DecidableEq K] (m : MapReduce)
    (values : List E) (map : E → K × V) (reduce : V → V → V) : List (Worker K V) :=
  distribute m.num_workers.toNat reduce
    (List.replicate m.num_workers.toNat Worker.new) 0 (taskInputs (values.map map))

/-- `MapReduce._execute_tasks`: extend `result` by each worker's
`execute()` in worker-index order; a raised error propagates. -/
def execute_tasks {K V : Type} (workers : List (Worker K V)) :
    Except PyError (List (K × V)) :=
  (workers.mapM Worker.execute).map List.flatten

/-- `MapReduce.map_reduce`: the three eager argument checks in source
order, then `_prepare_tasks` followed by `_execute_tasks`. -/
def MapReduce.map_reduce {E K V : Type} [DecidableEq K] (m : MapReduce) (values : PyArg E)
    (map : PyCallable (E → K × V)) (reduce : PyCallable (V → V → V)) :
    Except PyError (List (K × V)) :=
  if values.isList = false then
    Except.error (PyError.invalidArgument "values should be a list")
  else
    match map with
    | PyCallable.nonCallable =>
      Except.error (PyError.invalidArgument "map should be a callable")
    | PyCallable.callable f =>
      match reduce with
      | PyCallable.nonCallable =>
        Except.error (PyError.invalidArgument "reduce should be a callable")
      | PyCallable.callable g => execute_tasks (m.prepare_tasks values.getList f g)

/-- State-passing form of `map_reduce`: the method writes no attribute of
`self` (it only reads `self._num_workers`), so the post-state equals the
pre-state. -/
def MapReduce.map_reduceS {E K V : Type} [DecidableEq K] (m : MapReduce) (values : PyArg E)
    (map : PyCallable (E → K × V)) (reduce : PyCallable (V → V → V)) :
    MapReduce × Except PyError (List (K × V)) :=
  (m, m.map_reduce values map reduce)

/-- Seedless left fold (the spec's "left-fold with no explicit seed"):
`none` on the empty list, otherwise fold the tail onto the head. -/
def foldSeedless {V : Type} (g : V → V → V) : List V → Option V
  | [] => none
  | v :: vs => some (List.foldl g v vs)

/-- The values the mapper paired with key `k`, in input-element order. -/
def mappedValuesOf {K V : Type} [DecidableEq K] (mapped : List (K × V)) (k : K) : List V :=
  mapped.filterMap (fun p => if p.1 = k then some p.2 else none)

/-- The distinct elements of a list, in order of first occurrence. -/
def firstDedup {K : Type} [DecidableEq K] (ks : List K) : List K :=
  ks.foldl (fun acc k => if k ∈ acc then acc else acc ++ [k]) []

/-- The elements whose position (counted from `i`) is congruent to `j`
modulo `n`, kept in order: the round-robin share of worker `j`. -/
def selectIdx {α : Type} (n j : Nat) : Nat → List α → List α
  | _, [] => []
  | i, x :: xs =>
    if i % n = j then x :: selectIdx n j (i + 1) xs else selectIdx n j (i + 1) xs

/-- The aggregate pair a task reduces to when its value list is non-empty. -/
def aggOf {K V : Type} [Inhabited V] (t : Task K V) : K × V :=
  (t.key, (foldSeedless t.reduce t.values).getD default)

/-- The result sequence as the spec describes it: number the distinct keys
by first occurrence in the mapped sequence; worker `j` receives the keys
whose number is congruent to `j` mod `n`, in increasing number order; the
result is the worker-major concatenation of the per-key aggregates. -/
def specResult {E K V : Type} [DecidableEq K] [Inhabited V] (n : Nat) (xs : List E)
    (f : E → K × V) (g : V → V → V) : List (K × V) :=
  ((List.range n).map (fun j =>
    (selectIdx n j 0 (firstDedup ((xs.map f).map Prod.fst))).map
      (fun k => (k, (foldSeedless g (mappedValuesOf (xs.map f) k)).getD default)))).flatten

theorem length_submitAt {K V : Type} (ws : List (Worker K V)) (j : Nat) (t : Task K V) :
    (submitAt ws j t).length = ws.length := by
  induction ws generalizing j with
  | nil => rfl
  | cons w ws ih =>
    cases j with
    | zero => rfl
    | succ j => simp [submitAt, ih]

theorem getD_submitAt_self {K V : Type} (ws : List (Worker K V)) (j : Nat) (t : Task K V)
    (d : Worker K V) (hj : j < ws.length) :
    (submitAt ws j t).getD j d = (ws.getD j d).submit t := by
  induction ws generalizing j with
  | nil => simp at hj
  | cons w ws ih =>
    cases j with
    | zero => rfl
    | succ j => simpa [submitAt] using ih j (by simpa using Nat.lt_of_succ_lt_succ hj)

theorem getD_submitAt_ne {K V : Type} (ws : List (Worker K V)) (j j' : Nat) (t : Task K V)
    (d : Worker K V) (h : j' ≠ j) :
    (submitAt ws j t).getD j' d = ws.getD j' d := by
  induction ws generalizing j j' with
  | nil => rfl
  | cons w ws ih =>
    cases j with
    | zero =>
      cases j' with
      | zero => exact absurd rfl h
      | succ j' => rfl
    | succ j =>
      cases j' with
      | zero => rfl
      | succ j' => simpa [submitAt] using ih j j' (fun hh => h (by omega))

theorem getD_replicate {α : Type} (n j : Nat) (w d : α) (hj : j < n) :
    (List.replicate n w).getD j d = w := by
  induction n generalizing j with
  | zero => omega
  | succ n ih =>
    cases j with
    | zero => rfl
    | succ j => simpa [List.replicate] using ih j (Nat.lt_of_succ_lt_succ hj)

theorem selectIdx_map {α β : Type} (f : α → β) (n j : Nat) (l : List α) :
    ∀ i, selectIdx n j i (l.map f) = (selectIdx n j i l).map f := by
  induction l with
  | nil => intro i; rfl
  | cons x xs ih =>
    intro i
    by_cases h : i % n = j <;> simp [selectIdx, h, ih]

theorem mem_selectIdx {α : Type} {x : α} {n j : Nat} {l : List α} :
    ∀ {i : Nat}, x ∈ selectIdx n j i l → x ∈ l := by
  induction l with
  | nil => intro i hx; simp [selectIdx] at hx
  | cons y ys ih =>
    intro i hx
    by_cases h : i % n = j
    · rcases (by simpa [selectIdx, h] using hx : x = y ∨ x ∈ selectIdx n j (i + 1) ys) with
        h1 | h2
      · simp [h1]
      · exact List.mem_cons_of_mem _ (ih h2)
    · exact List.mem_cons_of_mem _ (ih (by simpa [selectIdx, h] using hx))

theorem exists_mem_selectIdx {α : Type} {x : α} {n : Nat} (hn : 0 < n) {l : List α} :
    ∀ i : Nat, x ∈ l → ∃ j, j < n ∧ x ∈ selectIdx n j i l := by
  induction l with
  | nil => intro i hx; simp at hx
  | cons y ys ih =>
    intro i hx
    rcases List.mem_cons.mp hx with h1 | h2
    · exact ⟨i % n, Nat.mod_lt _ hn, by simp [selectIdx, h1]⟩
    · obtain ⟨j, hj, hmem⟩ := ih (i + 1) h2
      refine ⟨j, hj, ?_⟩
      by_cases h : i % n = j <;> simp [selectIdx, h, hmem]

theorem distribute_length {K V : Type} (n : Nat) (g : V → V → V)
    (inputs : List (K × List V)) :
    ∀ (ws : List (Worker K V)) (i : Nat), (distribute n g ws i inputs).length = ws.length := by
  induction inputs with
  | nil => intro ws i; rfl
  | cons p rest ih =>
    intro ws i
    simp [distribute, ih, length_submitAt]

theorem distribute_getD {K V : Type} (n : Nat) (g : V → V → V)
    (inputs : List (K × List V)) (d : Worker K V) :
    ∀ (ws : List (Worker K V)) (i j : Nat), ws.length = n → j < n →
      ((distribute n g ws i inputs).getD j d).tasks =
        (ws.getD j d).tasks ++ selectIdx n j i (inputs.map (fun p => Task.mk p.1 p.2 g)) := by
  induction inputs with
  | nil => intro ws i j hlen hj; simp [distribute, selectIdx]
  | cons p rest ih =>
    intro ws i j hlen hj
    have hmod : i % n < ws.length := by rw [hlen]; exact Nat.mod_lt _ (by omega)
    have hlen' : (submitAt ws (i % n) (Task.mk p.1 p.2 g)).length = n := by
      rw [length_submitAt]; exact hlen
    by_cases h : i % n = j
    · rw [distribute, ih _ (i + 1) j hlen' hj, h, getD_submitAt_self ws j _ d (h ▸ hmod)]
      simp [Worker.submit, selectIdx, h]
    · rw [distribute, ih _ (i + 1) j hlen' hj,
        getD_submitAt_ne ws (i % n) j _ d (fun hh => h hh.symm)]
      simp [selectIdx, h]

theorem mem_dedupFold {K : Type} [DecidableEq K] (l : List K) :
    ∀ (acc : List K) (x : K),
      (x ∈ l.foldl (fun acc k => if k ∈ acc then acc else acc ++ [k]) acc) ↔
        x ∈ acc ∨ x ∈ l := by
  induction l with
  | nil => intro acc x; simp
  | cons k l ih =>
    intro acc x
    rw [List.foldl_cons, ih]
    by_cases hk : k ∈ acc
    · simp only [if_pos hk, List.mem_cons]
      constructor
      · rintro (h | h)
        · exact Or.inl h
        · exact Or.inr (Or.inr h)
      · rintro (h | rfl | h)
        · exact Or.inl h
        · exact Or.inl hk
        · exact Or.inr h
    · simp only [if_neg hk, List.mem_append, List.mem_singleton, List.mem_cons]
      tauto

theorem mem_firstDedup {K : Type} [DecidableEq K] (x : K) (l : List K) :
    x ∈ firstDedup l ↔ x ∈ l := by
  rw [firstDedup, mem_dedupFold]
  simp

theorem nodup_dedupFold {K : Type} [DecidableEq K] (l : List K) :
    ∀ acc : List K, acc.Nodup →
      (l.foldl (fun acc k => if k ∈ acc then acc else acc ++ [k]) acc).Nodup := by
  induction l with
  | nil => intro acc h; simpa using h
  | cons k l ih =>
    intro acc h
    rw [List.foldl_cons]
    apply ih
    by_cases hk : k ∈ acc
    · simpa [hk] using h
    · rw [if_neg hk, List.nodup_append]
      exact ⟨h, List.nodup_singleton k, by simpa using hk⟩

theorem nodup_firstDedup {K : Type} [DecidableEq K] (l : List K) : (firstDedup l).Nodup :=
  nodup_dedupFold l [] List.nodup_nil

theorem firstDedup_append {K : Type} [DecidableEq K] (l : List K) (k : K) :
    firstDedup (l ++ [k]) =
      if k ∈ firstDedup l then firstDedup l else firstDedup l ++ [k] := by
  simp [firstDedup, List.foldl_append]

theorem mappedValuesOf_append {K V : Type} [DecidableEq K] (l : List (K × V)) (p : K × V)
    (k : K) :
    mappedValuesOf (l ++ [p]) k =
      mappedValuesOf l k ++ if p.1 = k then [p.2] else [] := by
  rw [mappedValuesOf, mappedValuesOf, List.filterMap_append]
  congr 1
  by_cases h : p.1 = k <;> simp [h]

theorem mappedValuesOf_eq_nil {K V : Type} [DecidableEq K] {mapped : List (K × V)} {k : K}
    (hk : k ∉ mapped.map Prod.fst) : mappedValuesOf mapped k = [] := by
  rw [mappedValuesOf, List.filterMap_eq_nil_iff]
  intro p hp
  have hne : p.1 ≠ k := fun h => hk (h ▸ List.mem_map_of_mem Prod.fst hp)
  simp [hne]

theorem mappedValuesOf_ne_nil {K V : Type} [DecidableEq K] {mapped : List (K × V)} {k : K}
    (hk : k ∈ mapped.map Prod.fst) : mappedValuesOf mapped k ≠ [] := by
  intro h
  rw [mappedValuesOf, List.filterMap_eq_nil_iff] at h
  obtain ⟨p, hp, hpk⟩ := List.mem_map.mp hk
  have hnone := h p hp
  simp [hpk] at hnone

theorem groupInsert_map_mem {K V : Type} [DecidableEq K] (keys : List K) (F : K → List V)
    (k : K) (v : V) (hnd : keys.Nodup) (hk : k ∈ keys) :
    groupInsert (keys.map (fun k' => (k', F k'))) k v =
      keys.map (fun k' => (k', F k' ++ if k' = k then [v] else [])) := by
  induction keys with
  | nil => simp at hk
  | cons a rest ih =>
    rw [List.map_cons, List.map_cons, groupInsert]
    by_cases ha : a = k
    · rw [if_pos ha]
      subst ha
      have hrest : a ∉ rest := (List.nodup_cons.mp hnd).1
      congr 1
      · simp
      · apply List.map_congr_left
        intro k' hk'
        have : k' ≠ a := fun h => hrest (h ▸ hk')
        simp [this]
    · rw [if_neg ha]
      have hk' : k ∈ rest := by
        rcases List.mem_cons.mp hk with h | h
        · exact absurd h.symm ha
        · exact h
      rw [ih (List.nodup_cons.mp hnd).2 hk']
      congr 1
      simp [ha]

theorem groupInsert_map_not_mem {K V : Type} [DecidableEq K] (keys : List K) (F : K → List V)
    (k : K) (v : V) (hk : k ∉ keys) :
    groupInsert (keys.map (fun k' => (k', F k'))) k v =
      keys.map (fun k' => (k', F k')) ++ [(k, [v])] := by
  induction keys with
  | nil => rfl
  | cons a rest ih =>
    have ha : a ≠ k := fun h => hk (h ▸ List.mem_cons_self _ _)
    simp only [List.map_cons, groupInsert, if_neg ha, List.cons_append]
    rw [ih (fun h => hk (List.mem_cons_of_mem _ h))]

theorem taskInputs_char {K V : Type} [DecidableEq K] (mapped : List (K × V)) :
    taskInputs mapped =
      (firstDedup (mapped.map Prod.fst)).map (fun k => (k, mappedValuesOf mapped k)) := by
  induction mapped using List.reverseRecOn with
  | nil => rfl
  | append_singleton mapped p ih =>
    have hTI : taskInputs (mapped ++ [p]) = groupInsert (taskInputs mapped) p.1 p.2 := by
      simp [taskInputs, List.foldl_append]
    have hmapfst : (mapped ++ [p]).map Prod.fst = mapped.map Prod.fst ++ [p.1] := by
      simp
    rw [hTI, ih]
    by_cases hp : p.1 ∈ firstDedup (mapped.map Prod.fst)
    · rw [groupInsert_map_mem _ _ _ _ (nodup_firstDedup _) hp]
      have hkeys : firstDedup ((mapped ++ [p]).map Prod.fst) =
          firstDedup (mapped.map Prod.fst) := by
        rw [hmapfst, firstDedup_append, if_pos hp]
      rw [hkeys]
      apply List.map_congr_left
      intro k' hk'
      rw [mappedValuesOf_append]
      by_cases h : k' = p.1
      · simp [h]
      · rw [if_neg h, if_neg (fun hh => h hh.symm)]
    · rw [groupInsert_map_not_mem _ _ _ _ hp]
      have hkeys : firstDedup ((mapped ++ [p]).map Prod.fst) =
          firstDedup (mapped.map Prod.fst) ++ [p.1] := by
        rw [hmapfst, firstDedup_append, if_neg hp]
      rw [hkeys, List.map_append]
      congr 1
      · apply List.map_congr_left
        intro k' hk'
        have hne : k' ≠ p.1 := fun h => hp (h ▸ hk')
        rw [mappedValuesOf_append, if_neg (fun hh => hne hh.symm), List.append_nil]
      · have hnot : p.1 ∉ mapped.map Prod.fst := fun h => hp ((mem_firstDedup _ _).mpr h)
        rw [List.map_cons, List.map_nil, mappedValuesOf_append,
          mappedValuesOf_eq_nil hnot, if_pos rfl, List.nil_append]

theorem taskInputs_values_ne_nil {K V : Type} [DecidableEq K] (mapped : List (K × V)) :
    ∀ p ∈ taskInputs mapped, p.2 ≠ [] := by
  intro p hp
  rw [taskInputs_char] at hp
  obtain ⟨k, hk, rfl⟩ := List.mem_map.mp hp
  exact mappedValuesOf_ne_nil ((mem_firstDedup _ _).mp hk)

theorem getD_eq_get_of_lt {α : Type} :
    ∀ (l : List α) (n : Nat) (d : α) (h : n < l.length), l.getD n d = l.get ⟨n, h⟩
  | [], n, d, h => absurd h (by simp)
  | a :: l, 0, d, _ => rfl
  | a :: l, n + 1, d, h => getD_eq_get_of_lt l n d (Nat.lt_of_succ_lt_succ h)

theorem task_run_eq {K V : Type} [Inhabited V] (t : Task K V) (h : t.values ≠ []) :
    t.run = Except.ok (aggOf t) := by
  rcases t with ⟨k, vs, g⟩
  cases vs with
  | nil => simp at h
  | cons v vs => rfl

theorem mapM_run_ok {K V : Type} [Inhabited V] :
    ∀ (ts : List (Task K V)), (∀ t ∈ ts, t.values ≠ []) →
      ts.mapM Task.run = Except.ok (ts.map aggOf)
  | [], _ => rfl
  | t :: ts, h => by
    rw [List.mapM_cons, task_run_eq t (h t (List.mem_cons_self _ _)),
      mapM_run_ok ts (fun t' ht' => h t' (List.mem_cons_of_mem _ ht'))]
    rfl

theorem execute_ok {K V : Type} [Inhabited V] (w : Worker K V)
    (h : ∀ t ∈ w.tasks, t.values ≠ []) :
    w.execute = Except.ok (w.tasks.map aggOf) := mapM_run_ok _ h

theorem mapM_execute_ok {K V : Type} [Inhabited V] :
    ∀ (ws : List (Worker K V)), (∀ w ∈ ws, ∀ t ∈ w.tasks, t.values ≠ []) →
      ws.mapM Worker.execute = Except.ok (ws.map (fun w => w.tasks.map aggOf))
  | [], _ => rfl
  | w :: ws, h => by
    rw [List.mapM_cons, execute_ok w (h w (List.mem_cons_self _ _)),
      mapM_execute_ok ws (fun w' hw' t ht => h w' (List.mem_cons_of_mem _ hw') t ht)]
    rfl

theorem execute_tasks_ok {K V : Type} [Inhabited V] (ws : List (Worker K V))
    (h : ∀ w ∈ ws, ∀ t ∈ w.tasks, t.values ≠ []) :
    execute_tasks ws = Except.ok ((ws.map (fun w => w.tasks.map aggOf)).flatten) := by
  rw [execute_tasks, mapM_execute_ok ws h]
  rfl

theorem map_reduce_callable {E K V : Type} [DecidableEq K] (m : MapReduce) (xs : List E)
    (f : E → K × V) (g : V → V → V) :
    m.map_reduce (PyArg.pyList xs) (PyCallable.callable f) (PyCallable.callable g) =
      execute_tasks (m.prepare_tasks xs f g) := rfl

theorem prepare_tasks_length {E K V : Type} [DecidableEq K] (m : MapReduce) (xs : List E)
    (f : E → K × V) (g : V → V → V) :
    (m.prepare_tasks xs f g).length = m.num_workers.toNat := by
  rw [MapReduce.prepare_tasks, distribute_length]
  exact List.length_replicate _ _

theorem prepare_tasks_getD {E K V : Type} [DecidableEq K] (m : MapReduce) (xs : List E)
    (f : E → K × V) (g : V → V → V) (j : Nat) (hj : j < m.num_workers.toNat) :
    ((m.prepare_tasks xs f g).getD j Worker.new).tasks =
      selectIdx m.num_workers.toNat j 0
        ((taskInputs (xs.map f)).map (fun p => Task.mk p.1 p.2 g)) := by
  rw [MapReduce.prepare_tasks,
    distribute_getD m.num_workers.toNat g (taskInputs (xs.map f)) Worker.new
      (List.replicate m.num_workers.toNat Worker.new) 0 j (List.length_replicate _ _) hj,
    getD_replicate _ j _ _ hj]
  rfl

theorem mem_prepare_tasks {E K V : Type} [DecidableEq K] {m : MapReduce} {xs : List E}
    {f : E → K × V} {g : V → V → V} {w : Worker K V} (hw : w ∈ m.prepare_tasks xs f g) :
    ∃ j, j < m.num_workers.toNat ∧
      w.tasks = selectIdx m.num_workers.toNat j 0
        ((taskInputs (xs.map f)).map (fun p => Task.mk p.1 p.2 g)) := by
  obtain ⟨⟨j, hj⟩, rfl⟩ := List.mem_iff_get.mp hw
  have hj' : j < m.num_workers.toNat := by
    rw [← prepare_tasks_length m xs f g]; exact hj
  refine ⟨j, hj', ?_⟩
  rw [← getD_eq_get_of_lt _ j Worker.new hj]
  exact prepare_tasks_getD m xs f g j hj'

theorem prepare_tasks_nonempty_values {E K V : Type} [DecidableEq K] (m : MapReduce)
    (xs : List E) (f : E → K × V) (g : V → V → V) :
    ∀ w ∈ m.prepare_tasks xs f g, ∀ t ∈ w.tasks, t.values ≠ ([] : List V) := by
  intro w hw t ht
  obtain ⟨j, hj, htasks⟩ := mem_prepare_tasks hw
  rw [htasks] at ht
  obtain ⟨p, hp, rfl⟩ := List.mem_map.mp (mem_selectIdx ht)
  exact taskInputs_values_ne_nil _ p hp

theorem workers_map_eq_range {K V : Type} [Inhabited V] (ws : List (Worker K V)) (N : Nat)
    (T : Nat → List (Task K V)) (hlen : ws.length = N)
    (hget : ∀ j, j < N → (ws.getD j Worker.new).tasks = T j) :
    ws.map (fun w => w.tasks.map aggOf) = (List.range N).map (fun j => (T j).map aggOf) := by
  apply List.ext_get?
  intro n
  rw [List.get?_map, List.get?_map]
  by_cases h : n < N
  · rw [List.get?_range h, List.get?_eq_get (show n < ws.length by rw [hlen]; exact h)]
    simp only [Option.map_some']
    rw [← getD_eq_get_of_lt ws n Worker.new (show n < ws.length by rw [hlen]; exact h),
      hget n h]
  · rw [List.get?_len_le (show ws.length ≤ n by rw [hlen]; omega),
      List.get?_len_le (show (List.range N).length ≤ n by rw [List.length_range]; omega)]
    rfl

theorem map_reduce_ok {E K V : Type} [DecidableEq K] [Inhabited V] (m : MapReduce)
    (xs : List E) (f : E → K × V) (g : V → V → V) :
    m.map_reduce (PyArg.pyList xs) (PyCallable.callable f) (PyCallable.callable g) =
      Except.ok (specResult m.num_workers.toNat xs f g) := by
  rw [map_reduce_callable,
    execute_tasks_ok _ (prepare_tasks_nonempty_values m xs f g)]
  rw [workers_map_eq_range (m.prepare_tasks xs f g) m.num_workers.toNat
    (fun j => selectIdx m.num_workers.toNat j 0
      ((taskInputs (xs.map f)).map (fun p => Task.mk p.1 p.2 g)))
    (prepare_tasks_length m xs f g)
    (fun j hj => prepare_tasks_getD m xs f g j hj)]
  have hchar : (taskInputs (xs.map f)).map (fun p => Task.mk p.1 p.2 g) =
      (firstDedup ((xs.map f).map Prod.fst)).map
        (fun k => Task.mk k (mappedValuesOf (xs.map f) k) g) := by
    rw [taskInputs_char, List.map_map]
    rfl
  simp only [specResult]
  congr 1
  apply congrArg List.flatten
  apply List.map_congr_left
  intro j hj
  rw [hchar, selectIdx_map, List.map_map]
  rfl

theorem flatten_map_cons_block_perm {α : Type} (g : Nat → List α) (x : α) :
    ∀ (n j₀ : Nat), j₀ < n →
      List.Perm (((List.range n).map (fun j => if j₀ = j then x :: g j else g j)).flatten)
        (x :: ((List.range n).map g).flatten) := by
  intro n
  induction n with
  | zero => intro j₀ h; omega
  | succ n ih =>
    intro j₀ h
    rw [List.range_succ, List.map_append, List.map_append, List.flatten_append,
      List.flatten_append]
    by_cases hj : j₀ = n
    · subst hj
      have hmap : (List.range j₀).map (fun j => if j₀ = j then x :: g j else g j) =
          (List.range j₀).map g := by
        apply List.map_congr_left
        intro a ha
        have : a < j₀ := List.mem_range.mp ha
        rw [if_neg (by omega)]
      rw [hmap]
      simp only [List.map_cons, List.map_nil, if_pos rfl, List.flatten_cons,
        List.flatten_nil, List.append_nil]
      exact List.perm_middle
    · have hlt : j₀ < n := by omega
      simp only [List.map_cons, List.map_nil, if_neg hj, List.flatten_cons,
        List.flatten_nil, List.append_nil]
      exact (ih j₀ hlt).append_right (g n)

theorem selectIdx_flatten_perm {α : Type} {n : Nat} (hn : 0 < n) (l : List α) :
    ∀ i : Nat,
      List.Perm (((List.range n).map (fun j => selectIdx n j i l)).flatten) l := by
  induction l with
  | nil =>
    intro i
    simp [selectIdx]
  | cons x xs ih =>
    intro i
    have hstep : (List.range n).map (fun j => selectIdx n j i (x :: xs)) =
        (List.range n).map (fun j =>
          if i % n = j then x :: selectIdx n j (i + 1) xs else selectIdx n j (i + 1) xs) :=
      rfl
    rw [hstep]
    exact (flatten_map_cons_block_perm (fun j => selectIdx n j (i + 1) xs) x n (i % n)
      (Nat.mod_lt _ hn)).trans ((ih (i + 1)).cons x)

theorem flatten_map_addLast_perm {K V : Type} [DecidableEq K] (F : K → List V) (v : V)
    (k : K) :
    ∀ keys : List K, keys.Nodup → k ∈ keys →
      List.Perm ((keys.map (fun k' => F k' ++ if k' = k then [v] else [])).flatten)
        ((keys.map F).flatten ++ [v]) := by
  intro keys
  induction keys with
  | nil => intro _ h; simp at h
  | cons a rest ih =>
    intro hnd hk
    rw [List.map_cons, List.map_cons, List.flatten_cons, List.flatten_cons]
    by_cases ha : a = k
    · have hrest : rest.map (fun k' => F k' ++ if k' = k then [v] else []) = rest.map F := by
        apply List.map_congr_left
        intro b hb
        have hbk : b ≠ k := fun hh => (List.nodup_cons.mp hnd).1 (ha ▸ hh ▸ hb)
        rw [if_neg hbk, List.append_nil]
      rw [if_pos ha, hrest]
      have h1 : (F a ++ [v]) ++ (rest.map F).flatten =
          F a ++ ([v] ++ (rest.map F).flatten) := List.append_assoc _ _ _
      have h2 : (F a ++ (rest.map F).flatten) ++ [v] =
          F a ++ ((rest.map F).flatten ++ [v]) := List.append_assoc _ _ _
      rw [h1, h2]
      exact List.Perm.append_left (F a) List.perm_append_comm
    · rw [if_neg ha, List.append_nil]
      have hk' : k ∈ rest := by
        rcases List.mem_cons.mp hk with h | h
        · exact absurd h.symm ha
        · exact h
      have hrec := ih (List.nodup_cons.mp hnd).2 hk'
      have h3 : (F a ++ (rest.map F).flatten) ++ [v] =
          F a ++ ((rest.map F).flatten ++ [v]) := List.append_assoc _ _ _
      rw [h3]
      exact List.Perm.append_left (F a) hrec

theorem taskInputs_map_snd {K V : Type} [DecidableEq K] (mapped : List (K × V)) :
    (taskInputs mapped).map Prod.snd =
      (firstDedup (mapped.map Prod.fst)).map (mappedValuesOf mapped) := by
  rw [taskInputs_char, List.map_map]
  rfl

theorem taskInputs_values_perm {K V : Type} [DecidableEq K] (mapped : List (K × V)) :
    List.Perm (((taskInputs mapped).map Prod.snd).flatten) (mapped.map Prod.snd) := by
  induction mapped using List.reverseRecOn with
  | nil => exact List.Perm.refl _
  | append_singleton mapped p ih =>
    rw [taskInputs_map_snd] at ih ⊢
    have hmapfst : (mapped ++ [p]).map Prod.fst = mapped.map Prod.fst ++ [p.1] := by simp
    have hmapsnd : (mapped ++ [p]).map Prod.snd = mapped.map Prod.snd ++ [p.2] := by simp
    rw [hmapfst, hmapsnd, firstDedup_append]
    by_cases hp : p.1 ∈ firstDedup (mapped.map Prod.fst)
    · rw [if_pos hp]
      have hblocks : (firstDedup (mapped.map Prod.fst)).map (mappedValuesOf (mapped ++ [p])) =
          (firstDedup (mapped.map Prod.fst)).map
            (fun k' => mappedValuesOf mapped k' ++ if k' = p.1 then [p.2] else []) := by
        apply List.map_congr_left
        intro k' hk'
        rw [mappedValuesOf_append]
        by_cases h : p.1 = k'
        · rw [if_pos h, if_pos h.symm]
        · rw [if_neg h, if_neg (fun hh => h hh.symm)]
      rw [hblocks]
      exact (flatten_map_addLast_perm (mappedValuesOf mapped) p.2 p.1 _
        (nodup_firstDedup _) hp).trans (ih.append_right [p.2])
    · rw [if_neg hp]
      have hnotks : p.1 ∉ mapped.map Prod.fst := fun h => hp ((mem_firstDedup _ _).mpr h)
      rw [List.map_append]
      have hblocks : (firstDedup (mapped.map Prod.fst)).map (mappedValuesOf (mapped ++ [p])) =
          (firstDedup (mapped.map Prod.fst)).map (mappedValuesOf mapped) := by
        apply List.map_congr_left
        intro k' hk'
        have hne : k' ≠ p.1 := fun h => hp (h ▸ hk')
        rw [mappedValuesOf_append, if_neg (fun hh => hne hh.symm), List.append_nil]
      have hlast : [p.1].map (mappedValuesOf (mapped ++ [p])) = [[p.2]] := by
        rw [List.map_cons, List.map_nil, mappedValuesOf_append,
          mappedValuesOf_eq_nil hnotks, if_pos rfl, List.nil_append]
      rw [hblocks, hlast, List.flatten_append]
      simp only [List.flatten_cons, List.flatten_nil, List.append_nil]
      exact ih.append_right [p.2]

theorem firstDedup_perm_dedup {K : Type} [DecidableEq K] (l : List K) :
    List.Perm (firstDedup l) l.dedup := by
  rw [List.perm_iff_count]
  intro a
  by_cases h : a ∈ l
  · rw [List.count_eq_one_of_mem (nodup_firstDedup l) ((mem_firstDedup a l).mpr h),
      List.count_eq_one_of_mem l.nodup_dedup (List.mem_dedup.mpr h)]
  · rw [List.count_eq_zero_of_not_mem (fun hh => h ((mem_firstDedup a l).mp hh)),
      List.count_eq_zero_of_not_mem (fun hh => h (List.mem_dedup.mp hh))]

theorem init_ok_iff (nw : Int) (m : MapReduce) :
    MapReduce.init nw = Except.ok m ↔ 0 < nw ∧ m = ⟨nw⟩ := by
  rw [MapReduce.init]
  by_cases h : nw ≤ 0
  · rw [if_pos h]
    constructor
    · intro hh; cases hh
    · intro ⟨h1, _⟩; omega
  · rw [if_neg h]
    constructor
    · intro hh
      injection hh with hh
      exact ⟨by omega, hh.symm⟩
    · intro ⟨_, h2⟩
      rw [h2]

theorem specResult_keys {E K V : Type} [DecidableEq K] [Inhabited V] (n : Nat)
    (xs : List E) (f : E → K × V) (g : V → V → V) :
    (specResult n xs f g).map Prod.fst =
      ((List.range n).map
        (fun j => selectIdx n j 0 (firstDedup ((xs.map f).map Prod.fst)))).flatten := by
  rw [specResult, List.map_flatten, List.map_map]
  congr 1
  apply List.map_congr_left
  intro j hj
  rw [Function.comp_apply, List.map_map]
  have hid : (Prod.fst ∘ fun k : K =>
      (k, (foldSeedless g (mappedValuesOf (xs.map f) k)).getD default)) = id := rfl
  rw [hid, List.map_id]

theorem specResult_keys_perm {E K V : Type} [DecidableEq K] [Inhabited V] {n : Nat}
    (hn : 0 < n) (xs : List E) (f : E → K × V) (g : V → V → V) :
    List.Perm ((specResult n xs f g).map Prod.fst)
      (firstDedup ((xs.map f).map Prod.fst)) := by
  rw [specResult_keys]
  exact selectIdx_flatten_perm hn _ 0

theorem mapM_run_append_singleton {K V : Type} (w : Worker K V) (t : Task K V)
    (l : List (K × V)) (r : K × V) (hw : w.tasks.mapM Task.run = Except.ok l)
    (ht : t.run = Except.ok r) :
    (w.tasks ++ [t]).mapM Task.run = Except.ok (l ++ [r]) := by
  rw [List.mapM_append, hw, List.mapM_cons, ht, List.mapM_nil]
  rfl

/-- Claim C1: for every list of input elements, callable mapper and callable
reducer, and for every distinct key `k` produced by the mapper, the result of
`map_reduce` (on a validly constructed engine) contains the pair `(k, a)`
where `a` is the seedless left-fold of the reducer over exactly the values
the mapper paired with `k`, taken in input-element order. -/
theorem map_reduce_contains_group_fold {E K V : Type} [DecidableEq K] [Inhabited V]
    (nw : Int) (m : MapReduce) (hm : MapReduce.init nw = Except.ok m)
    (xs : List E) (f : E → K × V) (g : V → V → V) (k : K)
    (hk : k ∈ (xs.map f).map Prod.fst) :
    ∃ (l : List (K × V)) (a : V),
      m.map_reduce (PyArg.pyList xs) (PyCallable.callable f) (PyCallable.callable g) =
        Except.ok l ∧
      foldSeedless g (mappedValuesOf (xs.map f) k) = some a ∧ (k, a) ∈ l := by
  obtain ⟨hnw, rfl⟩ := (init_ok_iff nw m).mp hm
  have hpos : 0 < nw.toNat := by omega
  have hne := mappedValuesOf_ne_nil hk
  obtain ⟨v, vs, hvvs⟩ := List.exists_cons_of_ne_nil hne
  refine ⟨specResult nw.toNat xs f g, List.foldl g v vs, map_reduce_ok _ xs f g, ?_, ?_⟩
  · rw [hvvs]
    rfl
  · have hkd : k ∈ firstDedup ((xs.map f).map Prod.fst) := (mem_firstDedup _ _).mpr hk
    obtain ⟨j, hj, hmem⟩ := exists_mem_selectIdx hpos 0 hkd
    rw [specResult]
    refine List.mem_flatten.mpr
      ⟨_, List.mem_map_of_mem _ (List.mem_range.mpr hj), List.mem_map.mpr ⟨k, hmem, ?_⟩⟩
    rw [hvvs]
    rfl

/-- Witness for C1 at a concrete input: key 10 is mapped by elements 0 and 2
of the input list, and the result contains `(10, 2)` with reducer `+`. -/
theorem map_reduce_contains_group_fold_witness :
    ∃ (l : List (Nat × Nat)) (a : Nat),
      (MapReduce.mk 4).map_reduce (PyArg.pyList [10, 20, 10])
        (PyCallable.callable (fun v : Nat => (v, 1)))
        (PyCallable.callable (fun a b : Nat => a + b)) = Except.ok l ∧
      foldSeedless (fun a b : Nat => a + b)
        (mappedValuesOf ([10, 20, 10].map (fun v : Nat => (v, 1))) 10) = some a ∧
      (10, a) ∈ l :=
  map_reduce_contains_group_fold 4 (MapReduce.mk 4) rfl [10, 20, 10]
    (fun v : Nat => (v, 1)) (fun a b : Nat => a + b) 10 (by decide)

/-- Claim C2: for every non-empty input list, the multiset of keys in the
result equals the multiset of distinct keys produced by the mapper (each
distinct key exactly once, none lost or duplicated), and no mapped value is
duplicated or dropped between mapping and reduction (the grouping step
preserves the multiset of mapped values). -/
theorem map_reduce_keys_multiset {E K V : Type} [DecidableEq K] [Inhabited V]
    (nw : Int) (m : MapReduce) (hm : MapReduce.init nw = Except.ok m)
    (xs : List E) (hxs : xs ≠ []) (f : E → K × V) (g : V → V → V) :
    ∃ l : List (K × V),
      m.map_reduce (PyArg.pyList xs) (PyCallable.callable f) (PyCallable.callable g) =
        Except.ok l ∧
      (↑(l.map Prod.fst) : Multiset K) = ↑(((xs.map f).map Prod.fst).dedup) ∧
      (∀ k ∈ (xs.map f).map Prod.fst, (l.map Prod.fst).count k = 1) ∧
      List.Perm (((taskInputs (xs.map f)).map Prod.snd).flatten)
        ((xs.map f).map Prod.snd) := by
  obtain ⟨hnw, rfl⟩ := (init_ok_iff nw m).mp hm
  have hpos : 0 < nw.toNat := by omega
  refine ⟨specResult nw.toNat xs f g, map_reduce_ok _ xs f g, ?_, ?_,
    taskInputs_values_perm _⟩
  · rw [Multiset.coe_eq_coe]
    exact (specResult_keys_perm hpos xs f g).trans (firstDedup_perm_dedup _)
  · intro k hk
    rw [(specResult_keys_perm hpos xs f g).count_eq]
    exact List.count_eq_one_of_mem (nodup_firstDedup _) ((mem_firstDedup _ _).mpr hk)

/-- Witness for C2 at a concrete input. -/
theorem map_reduce_keys_multiset_witness :
    ∃ l : List (Nat × Nat),
      (MapReduce.mk 4).map_reduce (PyArg.pyList [10, 20, 10])
        (PyCallable.callable (fun v : Nat => (v, 1)))
        (PyCallable.callable (fun a b : Nat => a + b)) = Except.ok l ∧
      (↑(l.map Prod.fst) : Multiset Nat) =
        ↑((([10, 20, 10].map (fun v : Nat => (v, 1))).map Prod.fst).dedup) ∧
      (∀ k ∈ ([10, 20, 10].map (fun v : Nat => (v, 1))).map Prod.fst,
        (l.map Prod.fst).count k = 1) ∧
      List.Perm (((taskInputs ([10, 20, 10].map (fun v : Nat => (v, 1)))).map
          Prod.snd).flatten)
        (([10, 20, 10].map (fun v : Nat => (v, 1))).map Prod.snd) :=
  map_reduce_keys_multiset 4 (MapReduce.mk 4) rfl [10, 20, 10] (by decide)
    (fun v : Nat => (v, 1)) (fun a b : Nat => a + b)

/-- Claim C3: in a valid invocation with worker count `n`, numbering the
distinct keys by first occurrence in the mapped sequence, key number `i` is
assigned to worker `i mod n`, and the result is the worker-major
concatenation (worker 0's pairs in increasing key number, then worker 1's,
and so on) — this is exactly what `specResult` computes. -/
theorem map_reduce_worker_major {E K V : Type} [DecidableEq K] [Inhabited V]
    (n : Nat) (hn : 0 < n) (m : MapReduce)
    (hm : MapReduce.init (n : Int) = Except.ok m)
    (xs : List E) (f : E → K × V) (g : V → V → V) :
    m.map_reduce (PyArg.pyList xs) (PyCallable.callable f) (PyCallable.callable g) =
      Except.ok (specResult n xs f g) := by
  obtain ⟨hnw, rfl⟩ := (init_ok_iff _ m).mp hm
  have h := map_reduce_ok (MapReduce.mk (n : Int)) xs f g
  rwa [show (MapReduce.mk (n : Int)).num_workers.toNat = n from Int.toNat_natCast n] at h

/-- Witness for C3 at a concrete input (two workers, four distinct keys:
worker 0 gets keys numbered 0 and 2, worker 1 gets keys numbered 1 and 3). -/
theorem map_reduce_worker_major_witness :
    (MapReduce.mk ((2 : Nat) : Int)).map_reduce
      (PyArg.pyList [10, 20, 10, 20, 30, 40])
      (PyCallable.callable (fun v : Nat => (v, 1)))
      (PyCallable.callable (fun a b : Nat => a + b)) =
      Except.ok (specResult 2 [10, 20, 10, 20, 30, 40] (fun v : Nat => (v, 1))
        (fun a b : Nat => a + b)) :=
  map_reduce_worker_major 2 (by decide) (MapReduce.mk ((2 : Nat) : Int)) rfl
    [10, 20, 10, 20, 30, 40] (fun v : Nat => (v, 1)) (fun a b : Nat => a + b)

/-- Claim C4, counterexample: a tuple argument IS a genuine finite sequence
type and both the mapper and the reducer are callable — none of the claim's
three conditions holds — yet `map_reduce` raises the InvalidArgument error,
because the code checks `type(values) is list`, not "is a finite sequence". -/
theorem map_reduce_tuple_rejected_counterexample :
    (PyArg.pyTuple [(0 : Nat)]).isFiniteSequence = true ∧
    (PyCallable.callable (fun v : Nat => (v, v))).isCallable = true ∧
    (PyCallable.callable (fun a b : Nat => a + b)).isCallable = true ∧
    (MapReduce.mk 1).map_reduce (PyArg.pyTuple [(0 : Nat)])
      (PyCallable.callable (fun v : Nat => (v, v)))
      (PyCallable.callable (fun a b : Nat => a + b)) =
      Except.error (PyError.invalidArgument "values should be a list") :=
  ⟨rfl, rfl, rfl, rfl⟩

/-- Claim C4 as amended: exactly three conditions raise the InvalidArgument
error, each checked eagerly before any mapping, partitioning or reduction —
(a) the type of the values argument is not exactly the built-in `list`,
(b) the mapper is not invocable, (c) the reducer is not invocable; the checks
run in that order, the error value is independent of the mapper and reducer
behaviour (so the mapper is never applied and no partial result is
produced), and when none of the conditions holds the call returns a result. -/
theorem map_reduce_validation {E K V : Type} [DecidableEq K] [Inhabited V]
    (m : MapReduce) (values : PyArg E) (mapF : PyCallable (E → K × V))
    (reduceF : PyCallable (V → V → V)) :
    (values.isList = false →
      m.map_reduce values mapF reduceF =
        Except.error (PyError.invalidArgument "values should be a list")) ∧
    (values.isList = true → mapF.isCallable = false →
      m.map_reduce values mapF reduceF =
        Except.error (PyError.invalidArgument "map should be a callable")) ∧
    (values.isList = true → mapF.isCallable = true → reduceF.isCallable = false →
      m.map_reduce values mapF reduceF =
        Except.error (PyError.invalidArgument "reduce should be a callable")) ∧
    (values.isList = true → mapF.isCallable = true → reduceF.isCallable = true →
      ∃ l, m.map_reduce values mapF reduceF = Except.ok l) := by
  refine ⟨?_, ?_, ?_, ?_⟩
  · intro h1
    rcases values with xs | xs | xs | _
    · simp [PyArg.isList] at h1
    all_goals rfl
  · intro h1 h2
    rcases values with xs | xs | xs | _ <;> try simp [PyArg.isList] at h1
    rcases mapF with f | _
    · simp [PyCallable.isCallable] at h2
    · rfl
  · intro h1 h2 h3
    rcases values with xs | xs | xs | _ <;> try simp [PyArg.isList] at h1
    rcases mapF with f | _
    · rcases reduceF with g | _
      · simp [PyCallable.isCallable] at h3
      · rfl
    · simp [PyCallable.isCallable] at h2
  · intro h1 h2 h3
    rcases values with xs | xs | xs | _ <;> try simp [PyArg.isList] at h1
    rcases mapF with f | _
    · rcases reduceF with g | _
      · exact ⟨specResult m.num_workers.toNat xs f g, map_reduce_ok m xs f g⟩
      · simp [PyCallable.isCallable] at h3
    · simp [PyCallable.isCallable] at h2

/-- Witness for the amended C4: a non-sequence argument is rejected with the
values error, and a genuine list with callable mapper and reducer succeeds. -/
theorem map_reduce_validation_witness :
    (MapReduce.mk 1).map_reduce (PyArg.pyOther : PyArg Nat)
      (PyCallable.callable (fun v : Nat => (v, v)))
      (PyCallable.callable (fun a b : Nat => a + b)) =
      Except.error (PyError.invalidArgument "values should be a list") ∧
    ∃ l, (MapReduce.mk 1).map_reduce (PyArg.pyList [(5 : Nat)])
      (PyCallable.callable (fun v : Nat => (v, v)))
      (PyCallable.callable (fun a b : Nat => a + b)) = Except.ok l :=
  ⟨(map_reduce_validation (MapReduce.mk 1) (PyArg.pyOther : PyArg Nat)
      (PyCallable.callable (fun v : Nat => (v, v)))
      (PyCallable.callable (fun a b : Nat => a + b))).1 rfl,
   (map_reduce_validation (MapReduce.mk 1) (PyArg.pyList [(5 : Nat)])
      (PyCallable.callable (fun v : Nat => (v, v)))
      (PyCallable.callable (fun a b : Nat => a + b))).2.2.2 rfl rfl rfl⟩

/-- Claim C5: constructing the engine raises the InvalidArgument error
immediately exactly when the requested worker count is not positive
(`num_workers ≤ 0` rejected, every positive integer accepted). -/
theorem init_invalid_iff (n : Int) :
    (n ≤ 0 → MapReduce.init n =
      Except.error (PyError.invalidArgument "num_workers should be positive")) ∧
    (0 < n → MapReduce.init n = Except.ok ⟨n⟩) := by
  constructor
  · intro h
    rw [MapReduce.init, if_pos h]
  · intro h
    rw [MapReduce.init, if_neg (by omega)]

/-- Witness for C5: `num_workers = 0` and `-1` are rejected, `3` accepted. -/
theorem init_invalid_iff_witness :
    MapReduce.init 0 =
      Except.error (PyError.invalidArgument "num_workers should be positive") ∧
    MapReduce.init (-1) =
      Except.error (PyError.invalidArgument "num_workers should be positive") ∧
    MapReduce.init 3 = Except.ok ⟨3⟩ :=
  ⟨(init_invalid_iff 0).1 (by omega), (init_invalid_iff (-1)).1 (by omega),
    (init_invalid_iff 3).2 (by omega)⟩

/-- Claim C6: on the empty input list a valid engine returns the empty
result and raises no error, while internally still creating `n` workers,
each holding zero work units. -/
theorem map_reduce_empty_input {E K V : Type} [DecidableEq K] [Inhabited V]
    (n : Nat) (hn : 0 < n) (m : MapReduce)
    (hm : MapReduce.init (n : Int) = Except.ok m)
    (f : E → K × V) (g : V → V → V) :
    m.map_reduce (PyArg.pyList ([] : List E)) (PyCallable.callable f)
      (PyCallable.callable g) = Except.ok [] ∧
    m.prepare_tasks ([] : List E) f g = List.replicate n Worker.new ∧
    (m.prepare_tasks ([] : List E) f g).length = n := by
  obtain ⟨hnw, rfl⟩ := (init_ok_iff _ m).mp hm
  have htn : ((n : Int)).toNat = n := Int.toNat_natCast n
  refine ⟨?_, ?_, ?_⟩
  · rw [map_reduce_ok]
    congr 1
    simp [specResult, firstDedup, selectIdx]
  · have h2 : (MapReduce.mk (n : Int)).prepare_tasks ([] : List E) f g =
        List.replicate ((n : Int)).toNat Worker.new := rfl
    rw [h2, htn]
  · rw [prepare_tasks_length]
    exact htn

/-- Witness for C6 at a concrete worker count. -/
theorem map_reduce_empty_input_witness :
    (MapReduce.mk ((2 : Nat) : Int)).map_reduce (PyArg.pyList ([] : List Nat))
      (PyCallable.callable (fun v : Nat => (v, v)))
      (PyCallable.callable (fun a b : Nat => a + b)) = Except.ok [] ∧
    (MapReduce.mk ((2 : Nat) : Int)).prepare_tasks ([] : List Nat)
      (fun v : Nat => (v, v)) (fun a b : Nat => a + b) =
      List.replicate 2 Worker.new ∧
    ((MapReduce.mk ((2 : Nat) : Int)).prepare_tasks ([] : List Nat)
      (fun v : Nat => (v, v)) (fun a b : Nat => a + b)).length = 2 :=
  map_reduce_empty_input 2 (by decide) (MapReduce.mk ((2 : Nat) : Int)) rfl
    (fun v : Nat => (v, v)) (fun a b : Nat => a + b)

/-- Claim C7: two successive invocations on the same engine do not interact:
the second invocation's result equals the result a freshly constructed
engine with the same worker count would produce for the same arguments (the
method writes no engine state, so nothing leaks between runs). -/
theorem map_reduce_runs_independent
    {E₁ K₁ V₁ E₂ K₂ V₂ : Type} [DecidableEq K₁] [DecidableEq K₂]
    (nw : Int) (m m' : MapReduce)
    (hm : MapReduce.init nw = Except.ok m) (hm' : MapReduce.init nw = Except.ok m')
    (v₁ : PyArg E₁) (f₁ : PyCallable (E₁ → K₁ × V₁)) (g₁ : PyCallable (V₁ → V₁ → V₁))
    (v₂ : PyArg E₂) (f₂ : PyCallable (E₂ → K₂ × V₂)) (g₂ : PyCallable (V₂ → V₂ → V₂)) :
    ((m.map_reduceS v₁ f₁ g₁).1.map_reduceS v₂ f₂ g₂).2 =
      (m'.map_reduceS v₂ f₂ g₂).2 := by
  obtain ⟨h1, rfl⟩ := (init_ok_iff _ m).mp hm
  obtain ⟨h2, rfl⟩ := (init_ok_iff _ m').mp hm'
  rfl

/-- Witness for C7: a first run on one input does not influence a second run
on another input, which matches a fresh engine's result. -/
theorem map_reduce_runs_independent_witness :
    (((MapReduce.mk 4).map_reduceS (PyArg.pyList [10, 20, 10])
        (PyCallable.callable (fun v : Nat => (v, 1)))
        (PyCallable.callable (fun a b : Nat => a + b))).1.map_reduceS
      (PyArg.pyList [1, 2, 3, 1])
        (PyCallable.callable (fun v : Nat => (v, 1)))
        (PyCallable.callable (fun a b : Nat => a + b))).2 =
    ((MapReduce.mk 4).map_reduceS (PyArg.pyList [1, 2, 3, 1])
        (PyCallable.callable (fun v : Nat => (v, 1)))
        (PyCallable.callable (fun a b : Nat => a + b))).2 :=
  map_reduce_runs_independent 4 (MapReduce.mk 4) (MapReduce.mk 4) rfl rfl
    (PyArg.pyList [10, 20, 10]) (PyCallable.callable (fun v : Nat => (v, 1)))
    (PyCallable.callable (fun a b : Nat => a + b))
    (PyArg.pyList [1, 2, 3, 1]) (PyCallable.callable (fun v : Nat => (v, 1)))
    (PyCallable.callable (fun a b : Nat => a + b))

/-- Claim C8: every task created by the partitioner carries a non-empty
value list (a group is only created when at least one key/value pair maps to
its key), so the seedless fold in `Task.run` never sees an empty sequence
and its empty-input error branch is unreachable. -/
theorem tasks_values_nonempty {E K V : Type} [DecidableEq K] (m : MapReduce)
    (xs : List E) (f : E → K × V) (g : V → V → V) (w : Worker K V)
    (hw : w ∈ m.prepare_tasks xs f g) (t : Task K V) (ht : t ∈ w.tasks) :
    t.values ≠ [] ∧ ∃ r, t.run = Except.ok r := by
  have h := prepare_tasks_nonempty_values m xs f g w hw t ht
  refine ⟨h, ?_⟩
  rcases t with ⟨k, vs, gr⟩
  cases vs with
  | nil => simp at h
  | cons v vs => exact ⟨_, rfl⟩

/-- Witness for C8: the single task the partitioner creates for input `[0]`
carries the non-empty value list `[0]` and its run succeeds. -/
theorem tasks_values_nonempty_witness :
    (Task.mk (0 : Nat) [(0 : Nat)] (fun a b : Nat => a + b)).values ≠ [] ∧
    ∃ r, (Task.mk (0 : Nat) [(0 : Nat)] (fun a b : Nat => a + b)).run =
      Except.ok r :=
  tasks_values_nonempty (MapReduce.mk 1) [(0 : Nat)] (fun v : Nat => (v, v))
    (fun a b : Nat => a + b)
    (Worker.mk [Task.mk (0 : Nat) [(0 : Nat)] (fun a b : Nat => a + b)])
    (List.mem_cons_self _ _)
    (Task.mk (0 : Nat) [(0 : Nat)] (fun a b : Nat => a + b))
    (List.mem_cons_self _ _)

/-- Claim C9: the values argument is accepted only when its type is exactly
the built-in `list`; anything else — including tuples and list-subclass
instances, which are finite sequences — is rejected with the InvalidArgument
error before any element is processed (the error value does not depend on
the mapper, the reducer or the carried elements). -/
theorem map_reduce_requires_exact_list {E K V : Type} [DecidableEq K] (m : MapReduce)
    (values : PyArg E) (mapF : PyCallable (E → K × V))
    (reduceF : PyCallable (V → V → V)) (h : values.isList = false) :
    m.map_reduce values mapF reduceF =
      Except.error (PyError.invalidArgument "values should be a list") ∧
    (∀ xs : List E, (PyArg.pyTuple xs).isList = false) ∧
    (∀ xs : List E, (PyArg.pyListSubclass xs).isList = false) := by
  refine ⟨?_, fun _ => rfl, fun _ => rfl⟩
  rcases values with xs | xs | xs | _
  · simp [PyArg.isList] at h
  all_goals rfl

/-- Witness for C9: a concrete tuple argument is rejected. -/
theorem map_reduce_requires_exact_list_witness :
    (MapReduce.mk 1).map_reduce (PyArg.pyTuple [(1 : Nat)])
      (PyCallable.callable (fun v : Nat => (v, v)))
      (PyCallable.callable (fun a b : Nat => a + b)) =
      Except.error (PyError.invalidArgument "values should be a list") ∧
    (∀ xs : List Nat, (PyArg.pyTuple xs).isList = false) ∧
    (∀ xs : List Nat, (PyArg.pyListSubclass xs).isList = false) :=
  map_reduce_requires_exact_list (MapReduce.mk 1) (PyArg.pyTuple [(1 : Nat)])
    (PyCallable.callable (fun v : Nat => (v, v)))
    (PyCallable.callable (fun a b : Nat => a + b)) rfl

/-- Claim C10: `Worker.execute` does not mutate the worker's state: a second
`execute` returns the same result list, and a task submitted after an
`execute` call is retained together with all earlier tasks and included in
the result of a subsequent `execute` call. -/
theorem worker_execute_pure {K V : Type} (w : Worker K V) (t : Task K V)
    (l : List (K × V)) (r : K × V) (hw : w.execute = Except.ok l)
    (ht : t.run = Except.ok r) :
    (w.executeS.1).executeS.2 = w.executeS.2 ∧
    ((w.executeS.1).submit t).tasks = w.tasks ++ [t] ∧
    ((w.executeS.1).submit t).execute = Except.ok (l ++ [r]) := by
  refine ⟨rfl, rfl, ?_⟩
  show (w.tasks ++ [t]).mapM Task.run = Except.ok (l ++ [r])
  exact mapM_run_append_singleton w t l r hw ht

/-- Witness for C10 on a concrete worker and task. -/
theorem worker_execute_pure_witness :
    ((Worker.mk [Task.mk (0 : Nat) [(1 : Nat)] (fun a b : Nat => a + b)]).executeS.1.executeS.2 =
      (Worker.mk [Task.mk (0 : Nat) [(1 : Nat)] (fun a b : Nat => a + b)]).executeS.2) ∧
    ((Worker.mk [Task.mk (0 : Nat) [(1 : Nat)] (fun a b : Nat => a + b)]).executeS.1.submit
        (Task.mk (2 : Nat) [(3 : Nat), (4 : Nat)] (fun a b : Nat => a + b))).tasks =
      [Task.mk (0 : Nat) [(1 : Nat)] (fun a b : Nat => a + b)] ++
        [Task.mk (2 : Nat) [(3 : Nat), (4 : Nat)] (fun a b : Nat => a + b)] ∧
    ((Worker.mk [Task.mk (0 : Nat) [(1 : Nat)] (fun a b : Nat => a + b)]).executeS.1.submit
        (Task.mk (2 : Nat) [(3 : Nat), (4 : Nat)] (fun a b : Nat => a + b))).execute =
      Except.ok ([((0 : Nat), (1 : Nat))] ++ [((2 : Nat), (7 : Nat))]) :=
  worker_execute_pure
    (Worker.mk [Task.mk (0 : Nat) [(1 : Nat)] (fun a b : Nat => a + b)])
    (Task.mk (2 : Nat) [(3 : Nat), (4 : Nat)] (fun a b : Nat => a + b))
    [((0 : Nat), (1 : Nat))] ((2 : Nat), (7 : Nat)) rfl rfl

end MapReducePy
